import Mathlib

/-!
Shallow embedding of the per-point Weyl4 pipeline of `Source/CCZ4/Weyl4.impl.hpp`:
the electric/magnetic curvature tensors, the Gram-Schmidt null tetrad, and the
Newman-Penrose scalar extraction.  The tensor-algebra and geometry helpers that
the file calls (`TensorAlgebra::compute_inverse_sym`, `compute_christoffel`,
`compute_phys_chris`, `CCZ4Geometry::compute_ricci`, the alternating symbols and
`simd_max`) are not part of this tree; they are modelled from the specification
and marked as such.  All loops accumulate real numbers, so `FOR`-loop
accumulations are embedded as finite sums.
-/

noncomputable section

/-- Spatial coordinates of a grid point relative to the configured center. -/
structure Coordinates where
  x : ℝ
  y : ℝ
  z : ℝ

/-- Per-point variable bundle, generic over the numeric carrier exactly as the
C++ template is: values use `ℝ`, first derivatives use `Fin 3 → ℝ`. -/
structure Vars (data_t : Type) where
  chi : data_t
  h : Fin 3 → Fin 3 → data_t
  K : data_t
  A : Fin 3 → Fin 3 → data_t
  lapse : data_t
  shift : Fin 3 → data_t

/-- Second-derivative bundle: only the fields needed for the Ricci tensor. -/
structure Diff2Vars (data_t : Type) where
  chi : data_t
  h : Fin 3 → Fin 3 → data_t

/-- Electric and magnetic parts of the Weyl tensor at one point. -/
structure EBFields_t where
  E : Fin 3 → Fin 3 → ℝ
  B : Fin 3 → Fin 3 → ℝ

/-- The three spatial tetrad vectors. -/
structure Tetrad_t where
  u : Fin 3 → ℝ
  v : Fin 3 → ℝ
  w : Fin 3 → ℝ

/-- Real and imaginary part of the Newman-Penrose scalar. -/
structure NPScalar_t where
  Real : ℝ
  Im : ℝ

/-- Conformal Christoffel symbols in fully-lower and one-index-raised form. -/
structure chris_t where
  LLL : Fin 3 → Fin 3 → Fin 3 → ℝ
  ULL : Fin 3 → Fin 3 → Fin 3 → ℝ

/-- Ricci tensor (lower indices). -/
structure ricci_t where
  LL : Fin 3 → Fin 3 → ℝ

/-- Modelled from the spec: `TensorAlgebra::epsilon()` (not under `src/`), the 3D
alternating symbol with entries +1, -1, 0, here as the sign of the permutation
`(i,j,k)` of `(0,1,2)`. -/
def epsilon3 (i j k : Fin 3) : ℤ :=
  ((j : ℤ) - (i : ℤ)).sign * ((k : ℤ) - (i : ℤ)).sign * ((k : ℤ) - (j : ℤ)).sign

/-- Modelled from the spec: `TensorAlgebra::epsilon4D()` (not under `src/`), the
4D alternating symbol with entries +1, -1, 0. -/
def epsilon4 (i j k l : Fin 4) : ℤ :=
  ((j : ℤ) - (i : ℤ)).sign * ((k : ℤ) - (i : ℤ)).sign * ((l : ℤ) - (i : ℤ)).sign *
    ((k : ℤ) - (j : ℤ)).sign * ((l : ℤ) - (j : ℤ)).sign * ((l : ℤ) - (k : ℤ)).sign

/-- Embeds a spatial index into the 4D index range (index 3 is time). -/
def sp (i : Fin 3) : Fin 4 := ⟨i.val, by omega⟩

/-- Modelled from the spec: the determinant used by the cofactor-based
`TensorAlgebra::compute_inverse_sym` (not under `src/`), reading only the
upper-triangle entries of the symmetric input. -/
def compute_determinant_sym (m : Fin 3 → Fin 3 → ℝ) : ℝ :=
  m 0 0 * (m 1 1 * m 2 2 - m 1 2 * m 1 2) +
    m 0 1 * (m 1 2 * m 0 2 - m 0 1 * m 2 2) +
    m 0 2 * (m 0 1 * m 1 2 - m 1 1 * m 0 2)

/-- Modelled from the spec: `TensorAlgebra::compute_inverse_sym` (not under
`src/`), the closed-form cofactor-based inverse of a symmetric 3x3 tensor; the
lower triangle mirrors the upper one by construction. -/
def compute_inverse_sym (m : Fin 3 → Fin 3 → ℝ) : Fin 3 → Fin 3 → ℝ := fun i j =>
  match i, j with
  | 0, 0 => (m 1 1 * m 2 2 - m 1 2 * m 1 2) * (1 / compute_determinant_sym m)
  | 0, 1 => (m 0 2 * m 1 2 - m 0 1 * m 2 2) * (1 / compute_determinant_sym m)
  | 0, 2 => (m 0 1 * m 1 2 - m 0 2 * m 1 1) * (1 / compute_determinant_sym m)
  | 1, 0 => (m 0 2 * m 1 2 - m 0 1 * m 2 2) * (1 / compute_determinant_sym m)
  | 1, 1 => (m 0 0 * m 2 2 - m 0 2 * m 0 2) * (1 / compute_determinant_sym m)
  | 1, 2 => (m 0 1 * m 0 2 - m 0 0 * m 1 2) * (1 / compute_determinant_sym m)
  | 2, 0 => (m 0 1 * m 1 2 - m 0 2 * m 1 1) * (1 / compute_determinant_sym m)
  | 2, 1 => (m 0 1 * m 0 2 - m 0 0 * m 1 2) * (1 / compute_determinant_sym m)
  | 2, 2 => (m 0 0 * m 1 1 - m 0 1 * m 0 1) * (1 / compute_determinant_sym m)

/-- Modelled from the spec: lower-index Christoffel symbols of the conformal
metric from its first derivatives (`TensorAlgebra::compute_christoffel`, not
under `src/`); `d1h p q r` is the derivative of `h p q` in direction `r`. -/
def chris_LLL (d1h : Fin 3 → Fin 3 → Fin 3 → ℝ) : Fin 3 → Fin 3 → Fin 3 → ℝ :=
  fun i j k => 0.5 * (d1h j i k + d1h k i j - d1h j k i)

/-- Modelled from the spec: `TensorAlgebra::compute_christoffel` (not under
`src/`), both lower-index and one-index-raised Christoffel symbols. -/
def compute_christoffel (d1h : Fin 3 → Fin 3 → Fin 3 → ℝ)
    (h_UU : Fin 3 → Fin 3 → ℝ) : chris_t where
  LLL := chris_LLL d1h
  ULL := fun i j k => ∑ l, h_UU i l * chris_LLL d1h l j k

/-- Modelled from the spec: `TensorAlgebra::compute_phys_chris` (not under
`src/`), the physical-metric Christoffel symbols obtained from the conformal
ones by conformal-factor correction terms. -/
def compute_phys_chris (d1_chi : Fin 3 → ℝ) (vars_chi : ℝ)
    (vars_h : Fin 3 → Fin 3 → ℝ) (h_UU : Fin 3 → Fin 3 → ℝ)
    (chris_ULL : Fin 3 → Fin 3 → Fin 3 → ℝ) : Fin 3 → Fin 3 → Fin 3 → ℝ :=
  fun i j k =>
    chris_ULL i j k -
      0.5 / vars_chi *
        ((if i = j then (1 : ℝ) else 0) * d1_chi k +
          (if i = k then (1 : ℝ) else 0) * d1_chi j) +
      ∑ m, 0.5 / vars_chi * vars_h j k * h_UU i m * d1_chi m

/-- Modelled from the spec: second covariant derivative of the conformal factor
with respect to the conformal connection, a building block of the Ricci
tensor. -/
def covdtilde2chi (d1 : Vars (Fin 3 → ℝ)) (d2 : Diff2Vars (Fin 3 → Fin 3 → ℝ))
    (chris : chris_t) : Fin 3 → Fin 3 → ℝ :=
  fun k l => d2.chi k l - ∑ m, chris.ULL m k l * d1.chi m

/-- Modelled from the spec: contraction of the conformal Christoffel symbols
with the inverse conformal metric. -/
def contracted_chris (h_UU : Fin 3 → Fin 3 → ℝ) (chris : chris_t) : Fin 3 → ℝ :=
  fun k => ∑ l, ∑ m, h_UU l m * chris.ULL k l m

/-- Modelled from the spec: first derivative of the inverse conformal metric,
`-h_UU . d1h . h_UU`. -/
def d1_h_UU (h_UU : Fin 3 → Fin 3 → ℝ) (d1h : Fin 3 → Fin 3 → Fin 3 → ℝ) :
    Fin 3 → Fin 3 → Fin 3 → ℝ :=
  fun l m j => -∑ a, ∑ b, h_UU l a * d1h a b j * h_UU b m

/-- Modelled from the spec: first derivative of the lower-index Christoffel
symbols, from second derivatives of the conformal metric. -/
def d1_chris_LLL (d2h : Fin 3 → Fin 3 → Fin 3 → Fin 3 → ℝ) :
    Fin 3 → Fin 3 → Fin 3 → Fin 3 → ℝ :=
  fun a l m j => 0.5 * (d2h l a m j + d2h m a l j - d2h l m a j)

/-- Modelled from the spec: first derivative of the contracted conformal
Christoffel symbols. -/
def d1_contracted_chris (h_UU : Fin 3 → Fin 3 → ℝ)
    (d1h : Fin 3 → Fin 3 → Fin 3 → ℝ) (d2h : Fin 3 → Fin 3 → Fin 3 → Fin 3 → ℝ)
    (chris : chris_t) : Fin 3 → Fin 3 → ℝ :=
  fun k j =>
    ∑ l, ∑ m,
      (d1_h_UU h_UU d1h l m j * chris.ULL k l m +
        h_UU l m *
          ∑ a, (d1_h_UU h_UU d1h k a j * chris_LLL d1h a l m +
            h_UU k a * d1_chris_LLL d2h a l m j))

/-- Modelled from the spec: the conformal part of the Ricci tensor of the
conformal metric (derivative-of-connection terms, contracted-Christoffel terms,
second-derivative term and Christoffel quadratics). -/
def ricci_tilde (vars : Vars ℝ) (d1 : Vars (Fin 3 → ℝ))
    (d2 : Diff2Vars (Fin 3 → Fin 3 → ℝ)) (h_UU : Fin 3 → Fin 3 → ℝ)
    (chris : chris_t) : Fin 3 → Fin 3 → ℝ :=
  fun i j =>
    (∑ k,
        (0.5 * (vars.h k i * d1_contracted_chris h_UU d1.h d2.h chris k j +
            vars.h k j * d1_contracted_chris h_UU d1.h d2.h chris k i) +
          0.5 * contracted_chris h_UU chris k *
            (chris.LLL i j k + chris.LLL j i k))) +
      (∑ k, ∑ l, -0.5 * h_UU k l * d2.h i j k l) +
      ∑ k, ∑ l, ∑ m,
        h_UU l m *
          (chris.ULL k l i * chris.LLL j k m + chris.ULL k l j * chris.LLL i k m +
            chris.ULL k i m * chris.LLL k l j)

/-- Modelled from the spec: the conformal-factor part of the Ricci tensor. -/
def ricci_chi (vars : Vars ℝ) (d1 : Vars (Fin 3 → ℝ))
    (d2 : Diff2Vars (Fin 3 → Fin 3 → ℝ)) (h_UU : Fin 3 → Fin 3 → ℝ)
    (chris : chris_t) : Fin 3 → Fin 3 → ℝ :=
  fun i j =>
    0.5 *
      (covdtilde2chi d1 d2 chris i j +
        vars.h i j * (∑ k, ∑ l, h_UU k l * covdtilde2chi d1 d2 chris k l) -
        (d1.chi i * d1.chi j +
            3 * vars.h i j * (∑ m, ∑ n, h_UU m n * d1.chi m * d1.chi n)) /
          (2 * vars.chi))

/-- Modelled from the spec: `CCZ4Geometry::compute_ricci` (not under `src/`),
the standard conformal-decomposition Ricci tensor formula combining second
derivatives of the conformal metric, conformal-factor terms and Christoffel
contractions. -/
def compute_ricci (vars : Vars ℝ) (d1 : Vars (Fin 3 → ℝ))
    (d2 : Diff2Vars (Fin 3 → Fin 3 → ℝ)) (h_UU : Fin 3 → Fin 3 → ℝ)
    (chris : chris_t) : ricci_t where
  LL := fun i j =>
    (ricci_chi vars d1 d2 h_UU chris i j +
        vars.chi * ricci_tilde vars d1 d2 h_UU chris i j) /
      vars.chi

/-- Modelled from the spec: `simd_max`, the elementwise maximum used to floor
the conformal factor. -/
def simd_max (a b : ℝ) : ℝ := max a b

/-- Raised unit normal to the spatial hypersurface in 4D form
(`n_U[3] = 1/lapse`, `n_U[i] = -shift[i]/lapse`); index 3 is time. -/
def n_U (vars : Vars ℝ) : Fin 4 → ℝ := fun l =>
  if h : l.val < 3 then -vars.shift ⟨l.val, h⟩ / vars.lapse else 1 / vars.lapse

/-- Projection of the 4D alternating symbol onto the hypersurface, fully
lowered, as built inside `Weyl4::compute_EB_fields`. -/
def epsilon3_LLL (vars : Vars ℝ) : Fin 3 → Fin 3 → Fin 3 → ℝ := fun i j k =>
  ∑ l : Fin 4,
    n_U vars l * (epsilon4 (sp i) (sp j) (sp k) l : ℝ) * vars.lapse /
      (vars.chi * Real.sqrt vars.chi)

/-- The projected alternating tensor with its last two indices raised, as built
inside `Weyl4::compute_EB_fields`. -/
def epsilon3_LUU (vars : Vars ℝ) (h_UU : Fin 3 → Fin 3 → ℝ) :
    Fin 3 → Fin 3 → Fin 3 → ℝ := fun i j k =>
  ∑ m, ∑ n, epsilon3_LLL vars i m n * h_UU m j * vars.chi * h_UU n k * vars.chi

/-- Physical extrinsic curvature tensor, as built inside
`Weyl4::compute_EB_fields`. -/
def K_tensor (vars : Vars ℝ) : Fin 3 → Fin 3 → ℝ := fun i j =>
  vars.A i j / vars.chi + 1 / 3 * (vars.h i j * vars.K) / vars.chi

/-- Partial derivative of the physical extrinsic curvature tensor, as built
inside `Weyl4::compute_EB_fields`. -/
def d1_K_tensor (vars : Vars ℝ) (d1 : Vars (Fin 3 → ℝ)) :
    Fin 3 → Fin 3 → Fin 3 → ℝ := fun i j k =>
  d1.A i j k / vars.chi - d1.chi k / vars.chi * K_tensor vars i j +
    1 / 3 * d1.h i j k * vars.K / vars.chi +
    1 / 3 * vars.h i j * d1.K k / vars.chi

/-- Covariant derivative of the extrinsic curvature with respect to the
physical metric, as built inside `Weyl4::compute_EB_fields`. -/
def covariant_deriv_K_tensor (vars : Vars ℝ) (d1 : Vars (Fin 3 → ℝ))
    (chris_phys : Fin 3 → Fin 3 → Fin 3 → ℝ) : Fin 3 → Fin 3 → Fin 3 → ℝ :=
  fun i j k =>
    d1_K_tensor vars d1 i j k +
      ∑ l, (-(chris_phys l k i * K_tensor vars l j) -
        chris_phys l k j * K_tensor vars i l)

/-- Embedding of `Weyl4::compute_EB_fields`. -/
def compute_EB_fields (vars : Vars ℝ) (d1 : Vars (Fin 3 → ℝ))
    (d2 : Diff2Vars (Fin 3 → Fin 3 → ℝ)) (_coords : Coordinates) : EBFields_t :=
  let h_UU := compute_inverse_sym vars.h
  let chris := compute_christoffel d1.h h_UU
  let ricci := compute_ricci vars d1 d2 h_UU chris
  let chris_phys := compute_phys_chris d1.chi vars.chi vars.h h_UU chris.ULL
  { B := fun i j =>
      ∑ k, ∑ l,
        epsilon3_LUU vars h_UU i k l * covariant_deriv_K_tensor vars d1 chris_phys l j k
    E := fun i j =>
      ricci.LL i j + vars.K * K_tensor vars i j +
        ∑ k, ∑ l, -K_tensor vars i k * K_tensor vars l j * h_UU k l * vars.chi }

/-- Radial seed vector `u = (x, y, z)` of `Weyl4::compute_null_tetrad`. -/
def tetrad_u0 (coords : Coordinates) : Fin 3 → ℝ := ![coords.x, coords.y, coords.z]

/-- Azimuthal seed vector `v = (-y, x, 0)` of `Weyl4::compute_null_tetrad`. -/
def tetrad_v0 (coords : Coordinates) : Fin 3 → ℝ := ![-coords.y, coords.x, 0]

/-- Floored conformal factor `simd_max(vars.chi, 1e-4)` of
`Weyl4::compute_null_tetrad`. -/
def tetrad_chi (vars : Vars ℝ) : ℝ := simd_max vars.chi 1e-4

/-- Third seed vector of `Weyl4::compute_null_tetrad`: the raised cross product
of `v` and `u`, scaled by `1/sqrt(chi)`. -/
def tetrad_w0 (vars : Vars ℝ) (coords : Coordinates) : Fin 3 → ℝ := fun i =>
  ∑ j, ∑ k, ∑ m,
    1 / Real.sqrt (tetrad_chi vars) * compute_inverse_sym vars.h i j *
      (epsilon3 j k m : ℝ) * tetrad_v0 coords k * tetrad_u0 coords m

/-- First Gram-Schmidt inner product `omega_11 = <v,v>` of
`Weyl4::compute_null_tetrad`. -/
def omega_11 (vars : Vars ℝ) (coords : Coordinates) : ℝ :=
  ∑ i, ∑ j, tetrad_v0 coords i * tetrad_v0 coords j * vars.h i j / tetrad_chi vars

/-- The normalized `v` of `Weyl4::compute_null_tetrad`. -/
def tetrad_v1 (vars : Vars ℝ) (coords : Coordinates) : Fin 3 → ℝ := fun i =>
  tetrad_v0 coords i / Real.sqrt (omega_11 vars coords)

/-- Gram-Schmidt inner product `omega_12 = <v,u>` (after normalizing `v`). -/
def omega_12 (vars : Vars ℝ) (coords : Coordinates) : ℝ :=
  ∑ i, ∑ j, tetrad_v1 vars coords i * tetrad_u0 coords j * vars.h i j / tetrad_chi vars

/-- The vector `u` after removing its `v`-component. -/
def tetrad_u1 (vars : Vars ℝ) (coords : Coordinates) : Fin 3 → ℝ := fun i =>
  tetrad_u0 coords i + -omega_12 vars coords * tetrad_v1 vars coords i

/-- Gram-Schmidt inner product `omega_22 = <u,u>` (after the `v`-projection). -/
def omega_22 (vars : Vars ℝ) (coords : Coordinates) : ℝ :=
  ∑ i, ∑ j, tetrad_u1 vars coords i * tetrad_u1 vars coords j * vars.h i j / tetrad_chi vars

/-- The normalized `u` of `Weyl4::compute_null_tetrad`. -/
def tetrad_u2 (vars : Vars ℝ) (coords : Coordinates) : Fin 3 → ℝ := fun i =>
  tetrad_u1 vars coords i / Real.sqrt (omega_22 vars coords)

/-- Gram-Schmidt inner product `omega_13 = <v,w>`. -/
def omega_13 (vars : Vars ℝ) (coords : Coordinates) : ℝ :=
  ∑ i, ∑ j, tetrad_v1 vars coords i * tetrad_w0 vars coords j * vars.h i j / tetrad_chi vars

/-- Gram-Schmidt inner product `omega_23 = <u,w>`. -/
def omega_23 (vars : Vars ℝ) (coords : Coordinates) : ℝ :=
  ∑ i, ∑ j, tetrad_u2 vars coords i * tetrad_w0 vars coords j * vars.h i j / tetrad_chi vars

/-- The vector `w` after removing its `v`- and `u`-components. -/
def tetrad_w1 (vars : Vars ℝ) (coords : Coordinates) : Fin 3 → ℝ := fun i =>
  tetrad_w0 vars coords i +
    -(omega_13 vars coords * tetrad_v1 vars coords i +
      omega_23 vars coords * tetrad_u2 vars coords i)

/-- Gram-Schmidt inner product `omega_33 = <w,w>` (after the projections). -/
def omega_33 (vars : Vars ℝ) (coords : Coordinates) : ℝ :=
  ∑ i, ∑ j, tetrad_w1 vars coords i * tetrad_w1 vars coords j * vars.h i j / tetrad_chi vars

/-- The normalized `w` of `Weyl4::compute_null_tetrad`. -/
def tetrad_w2 (vars : Vars ℝ) (coords : Coordinates) : Fin 3 → ℝ := fun i =>
  tetrad_w1 vars coords i / Real.sqrt (omega_33 vars coords)

/-- Embedding of `Weyl4::compute_null_tetrad`: seeds, floor on chi, the raised
cross product for `w`, and the ordered Gram-Schmidt sweep (v, then u, then w),
every inner product taken with `h[i][j]/chi` for the floored chi.  The
sequential in-place updates of the C++ are spelled out as the chain of
definitions above. -/
def compute_null_tetrad (vars : Vars ℝ) (coords : Coordinates) : Tetrad_t :=
  { u := tetrad_u2 vars coords, v := tetrad_v1 vars coords, w := tetrad_w2 vars coords }

/-- Embedding of `Weyl4::compute_Weyl4`: projection of the electric and
magnetic tensors on the tetrad. -/
def compute_Weyl4 (ebfields : EBFields_t) (vars : Vars ℝ)
    (_d1 : Vars (Fin 3 → ℝ)) (_d2 : Diff2Vars (Fin 3 → Fin 3 → ℝ))
    (coords : Coordinates) : NPScalar_t :=
  let tetrad := compute_null_tetrad vars coords
  { Real := ∑ i, ∑ j,
      0.5 * (ebfields.E i j * (tetrad.w i * tetrad.w j - tetrad.v i * tetrad.v j) -
        2.0 * ebfields.B i j * tetrad.w i * tetrad.v j)
    Im := ∑ i, ∑ j,
      0.5 * (ebfields.B i j * (-(tetrad.w i * tetrad.w j) + tetrad.v i * tetrad.v j) -
        2.0 * ebfields.E i j * tetrad.w i * tetrad.v j) }

/-- Embedding of the per-point kernel `Weyl4::compute` after the loads: the
E/B computation followed by the tetrad projection. -/
def Weyl4_compute (vars : Vars ℝ) (d1 : Vars (Fin 3 → ℝ))
    (d2 : Diff2Vars (Fin 3 → Fin 3 → ℝ)) (coords : Coordinates) : NPScalar_t :=
  compute_Weyl4 (compute_EB_fields vars d1 d2 coords) vars d1 d2 coords

/-- One grid cell's loaded inputs: the per-point variable bundle, the two
derivative bundles produced by the external stencil operator, and the cell's
coordinates (already offset by the configured center). -/
structure CellInput where
  vars : Vars ℝ
  d1 : Vars (Fin 3 → ℝ)
  d2 : Diff2Vars (Fin 3 → Fin 3 → ℝ)
  coords : Coordinates

/-- The pair written to the two output channels of one cell. -/
def cellOutput (c : CellInput) : ℝ × ℝ :=
  ((Weyl4_compute c.vars c.d1 c.d2 c.coords).Real,
    (Weyl4_compute c.vars c.d1 c.d2 c.coords).Im)

/-- Writing the two output channels at grid index `i`: only that index
changes. -/
def storeCell (inputs : ℕ → CellInput) (store : ℕ → Option (ℝ × ℝ)) (i : ℕ) :
    ℕ → Option (ℝ × ℝ) :=
  fun j => if j = i then some (cellOutput (inputs i)) else store j

/-- Evaluating the per-point kernel over a list of grid indices in order. -/
def runCells (inputs : ℕ → CellInput) :
    List ℕ → (ℕ → Option (ℝ × ℝ)) → ℕ → Option (ℝ × ℝ)
  | [], store => store
  | i :: rest, store => runCells inputs rest (storeCell inputs store i)

/-- Flat-space variable bundle: unit conformal factor and lapse, identity
conformal metric, vanishing extrinsic curvature and shift. -/
def flatVars : Vars ℝ where
  chi := 1
  h := fun i j => if i = j then 1 else 0
  K := 0
  A := fun _ _ => 0
  lapse := 1
  shift := fun _ => 0

/-- All first derivatives zero. -/
def zeroD1 : Vars (Fin 3 → ℝ) where
  chi := fun _ => 0
  h := fun _ _ _ => 0
  K := fun _ => 0
  A := fun _ _ _ => 0
  lapse := fun _ => 0
  shift := fun _ _ => 0

/-- All second derivatives zero. -/
def zeroD2 : Diff2Vars (Fin 3 → Fin 3 → ℝ) where
  chi := fun _ _ => 0
  h := fun _ _ _ _ => 0

/-- A first-derivative bundle that is zero except for a single unit derivative
of the `A` component `(0,0)` in direction `1`. -/
def cexD1 : Vars (Fin 3 → ℝ) where
  chi := fun _ => 0
  h := fun _ _ _ => 0
  K := fun _ => 0
  A := fun i j k => if i = 0 ∧ j = 0 ∧ k = 1 then 1 else 0
  lapse := fun _ => 0
  shift := fun _ _ => 0

/-- Coordinates of the origin. -/
def originCoords : Coordinates := ⟨0, 0, 0⟩

/-- Spec-side physical inner product: metric `h[i][j]/chi` with the conformal
factor floored, following the specification's wording. -/
def spec_inner (vars : Vars ℝ) (a b : Fin 3 → ℝ) : ℝ :=
  ∑ i, ∑ j, a i * b j * (vars.h i j / simd_max vars.chi 1e-4)

/-- Spec-side normalization of a vector by its norm under `g`. -/
def spec_gs_normalize (g : (Fin 3 → ℝ) → (Fin 3 → ℝ) → ℝ) (a : Fin 3 → ℝ) :
    Fin 3 → ℝ :=
  fun i => a i / Real.sqrt (g a a)

/-- Spec-side Gram-Schmidt sweep in the fixed order v, then u, then w: v is
normalized, then the v-component is removed from u and u is normalized, then
the v- and u-components are removed from w and w is normalized, all inner
products taken with `g`. -/
def spec_gram_schmidt (g : (Fin 3 → ℝ) → (Fin 3 → ℝ) → ℝ)
    (u v w : Fin 3 → ℝ) : (Fin 3 → ℝ) × (Fin 3 → ℝ) × (Fin 3 → ℝ) :=
  let v' := spec_gs_normalize g v
  let u' := spec_gs_normalize g (fun i => u i - g v' u * v' i)
  let w' := spec_gs_normalize g
    (fun i => w i - (g v' w * v' i + g u' w * u' i))
  (v', u', w')

/-- Spec-side physical extrinsic curvature tensor
`A[i][j]/chi + (1/3) h[i][j] K / chi`. -/
def spec_K_tensor (vars : Vars ℝ) : Fin 3 → Fin 3 → ℝ := fun i j =>
  vars.A i j / vars.chi + 1 / 3 * vars.h i j * vars.K / vars.chi

/-- Spec-side covariant derivative of the extrinsic curvature: the partial
derivative minus physical-Christoffel contractions on both indices. -/
def spec_covariant_deriv_K (vars : Vars ℝ) (d1 : Vars (Fin 3 → ℝ))
    (chris_phys : Fin 3 → Fin 3 → Fin 3 → ℝ) : Fin 3 → Fin 3 → Fin 3 → ℝ :=
  fun i j k =>
    d1_K_tensor vars d1 i j k -
      ∑ l, (chris_phys l k i * spec_K_tensor vars l j +
        chris_phys l k j * spec_K_tensor vars i l)

/-- Spec-side real part of the Newman-Penrose scalar. -/
def spec_Weyl4_Re (E B : Fin 3 → Fin 3 → ℝ) (v w : Fin 3 → ℝ) : ℝ :=
  ∑ i, ∑ j,
    0.5 * (E i j * (w i * w j - v i * v j) - 2 * B i j * w i * v j)

/-- Spec-side imaginary part of the Newman-Penrose scalar. -/
def spec_Weyl4_Im (E B : Fin 3 → Fin 3 → ℝ) (v w : Fin 3 → ℝ) : ℝ :=
  ∑ i, ∑ j,
    0.5 * (B i j * (-(w i * w j) + v i * v j) - 2 * E i j * w i * v j)

/-- Spec-side projected alternating tensor, fully lowered: contraction of the
4D symbol with the normal over the fourth index, scaled by
`lapse / chi^(3/2)`. -/
def spec_epsilon3_LLL (vars : Vars ℝ) : Fin 3 → Fin 3 → Fin 3 → ℝ :=
  fun i j k =>
    ∑ l : Fin 4,
      n_U vars l * (epsilon4 (sp i) (sp j) (sp k) l : ℝ) *
        (vars.lapse / Real.sqrt (vars.chi ^ 3))

/-- Spec-side raising of the last two indices of the projected alternating
tensor with the physical inverse metric `h_UU * chi`. -/
def spec_epsilon3_LUU (vars : Vars ℝ) (h_UU : Fin 3 → Fin 3 → ℝ) :
    Fin 3 → Fin 3 → Fin 3 → ℝ :=
  fun i j k =>
    ∑ m, ∑ n,
      spec_epsilon3_LLL vars i m n * (h_UU m j * vars.chi) * (h_UU n k * vars.chi)

lemma chi_mul_sqrt (c : ℝ) : c * Real.sqrt c = Real.sqrt (c ^ 3) := by
  rcases le_or_lt 0 c with hc | hc
  · rw [show c ^ 3 = c ^ 2 * c by ring, Real.sqrt_mul (sq_nonneg c), Real.sqrt_sq hc]
  · rw [Real.sqrt_eq_zero_of_nonpos hc.le, mul_zero,
      Real.sqrt_eq_zero_of_nonpos (Odd.pow_nonpos (by decide) hc.le)]

/-- C8: `compute_Weyl4` returns exactly the claimed bilinear contraction of the
E and B tensors against the tetrad vectors `w` and `v` (a total function, no
branching), for every input. -/
theorem C8_Weyl4_scalar_formula (ebfields : EBFields_t) (vars : Vars ℝ)
    (d1 : Vars (Fin 3 → ℝ)) (d2 : Diff2Vars (Fin 3 → Fin 3 → ℝ))
    (coords : Coordinates) :
    (compute_Weyl4 ebfields vars d1 d2 coords).Real =
        spec_Weyl4_Re ebfields.E ebfields.B (compute_null_tetrad vars coords).v
          (compute_null_tetrad vars coords).w ∧
      (compute_Weyl4 ebfields vars d1 d2 coords).Im =
        spec_Weyl4_Im ebfields.E ebfields.B (compute_null_tetrad vars coords).v
          (compute_null_tetrad vars coords).w := by
  constructor <;>
  · simp only [compute_Weyl4, spec_Weyl4_Re, spec_Weyl4_Im]
    refine Finset.sum_congr rfl fun i _ => Finset.sum_congr rfl fun j _ => ?_
    norm_num

/-- C10: the output of `compute_Weyl4` depends only on the E/B tensors, the
conformal metric, the conformal factor and the coordinates; the derivative
arguments and the lapse, shift, A and K fields are accepted but never read. -/
theorem C10_Weyl4_reads_only_EB_h_chi_coords (ebfields : EBFields_t)
    (vars1 vars2 : Vars ℝ) (d1 d1' : Vars (Fin 3 → ℝ))
    (d2 d2' : Diff2Vars (Fin 3 → Fin 3 → ℝ)) (coords : Coordinates)
    (hh : vars1.h = vars2.h) (hchi : vars1.chi = vars2.chi) :
    compute_Weyl4 ebfields vars1 d1 d2 coords =
      compute_Weyl4 ebfields vars2 d1' d2' coords := by
  have ht : compute_null_tetrad vars1 coords = compute_null_tetrad vars2 coords := by
    obtain ⟨c1, h1, K1, A1, l1, s1⟩ := vars1
    obtain ⟨c2, h2, K2, A2, l2, s2⟩ := vars2
    replace hh : h1 = h2 := hh
    replace hchi : c1 = c2 := hchi
    subst hh
    subst hchi
    rfl
  simp only [compute_Weyl4, ht]

/-- Witness for C10 at flat-space inputs with two different derivative
bundles. -/
theorem C10_witness :
    flatVars.h = flatVars.h ∧ flatVars.chi = flatVars.chi ∧
      compute_Weyl4 ⟨fun _ _ => 0, fun _ _ => 0⟩ flatVars zeroD1 zeroD2 originCoords =
        compute_Weyl4 ⟨fun _ _ => 0, fun _ _ => 0⟩ flatVars cexD1 zeroD2 originCoords :=
  ⟨rfl, rfl,
    C10_Weyl4_reads_only_EB_h_chi_coords ⟨fun _ _ => 0, fun _ _ => 0⟩ flatVars
      flatVars zeroD1 cexD1 zeroD2 zeroD2 originCoords rfl rfl⟩

lemma runCells_not_mem (inputs : ℕ → CellInput) :
    ∀ (order : List ℕ) (store : ℕ → Option (ℝ × ℝ)) (i : ℕ),
      i ∉ order → runCells inputs order store i = store i := by
  intro order
  induction order with
  | nil => intro store i _; rfl
  | cons a rest ih =>
    intro store i hi
    have hia : i ≠ a := fun h => hi (h ▸ List.mem_cons_self a rest)
    have hirest : i ∉ rest := fun h => hi (List.mem_cons_of_mem a h)
    show runCells inputs rest (storeCell inputs store a) i = store i
    rw [ih _ _ hirest]
    simp [storeCell, hia]

lemma runCells_mem (inputs : ℕ → CellInput) :
    ∀ (order : List ℕ) (store : ℕ → Option (ℝ × ℝ)) (i : ℕ),
      i ∈ order → runCells inputs order store i = some (cellOutput (inputs i)) := by
  intro order
  induction order with
  | nil => intro store i h; exact absurd h (List.not_mem_nil i)
  | cons a rest ih =>
    intro store i hi
    by_cases hr : i ∈ rest
    · exact ih _ _ hr
    · have hia : i = a := by
        rcases List.mem_cons.mp hi with h | h
        · exact h
        · exact absurd h hr
      show runCells inputs rest (storeCell inputs store a) i = _
      rw [runCells_not_mem inputs rest _ _ hr]
      simp [storeCell, hia]

/-- C9: each per-point evaluation is a pure function of that point's inputs:
whatever the order of grid-point evaluations, the final value of the two output
channels at an evaluated index `i` is exactly the kernel's output on the inputs
at `i` (so equal inputs give equal outputs and the result is independent of the
evaluation order), and an index that is never evaluated is never written. -/
theorem C9_pointwise_purity :
    (∀ (inputs : ℕ → CellInput) (order : List ℕ) (store : ℕ → Option (ℝ × ℝ))
      (i : ℕ), i ∈ order →
        runCells inputs order store i = some (cellOutput (inputs i))) ∧
      ∀ (inputs : ℕ → CellInput) (order : List ℕ) (store : ℕ → Option (ℝ × ℝ))
        (i : ℕ), i ∉ order → runCells inputs order store i = store i :=
  ⟨fun inputs order store i h => runCells_mem inputs order store i h,
    fun inputs order store i h => runCells_not_mem inputs order store i h⟩

/-- Witness for C9: one cell evaluated in a singleton order, and an index that
is not in the order. -/
theorem C9_witness :
    ((0 : ℕ) ∈ [0] ∧
      runCells (fun _ => ⟨flatVars, zeroD1, zeroD2, originCoords⟩) [0]
          (fun _ => none) 0 =
        some (cellOutput ⟨flatVars, zeroD1, zeroD2, originCoords⟩)) ∧
      ((1 : ℕ) ∉ [0] ∧
        runCells (fun _ => ⟨flatVars, zeroD1, zeroD2, originCoords⟩) [0]
            (fun _ => none) 1 = none) :=
  ⟨⟨by simp,
      C9_pointwise_purity.1 (fun _ => ⟨flatVars, zeroD1, zeroD2, originCoords⟩)
        [0] (fun _ => none) 0 (by simp)⟩,
    ⟨by simp,
      C9_pointwise_purity.2 (fun _ => ⟨flatVars, zeroD1, zeroD2, originCoords⟩)
        [0] (fun _ => none) 1 (by simp)⟩⟩

/-- C7: the projected alternating tensor is the spec's contraction of the 4D
symbol with the raised normal over the fourth (time) index scaled by
`lapse / chi^(3/2)`, and its last two indices are raised with the physical
inverse metric `h_UU * chi`. -/
theorem C7_epsilon3_projection (vars : Vars ℝ) :
    epsilon3_LLL vars = spec_epsilon3_LLL vars ∧
      epsilon3_LUU vars (compute_inverse_sym vars.h) =
        spec_epsilon3_LUU vars (compute_inverse_sym vars.h) := by
  have hLLL : epsilon3_LLL vars = spec_epsilon3_LLL vars := by
    funext i j k
    simp only [epsilon3_LLL, spec_epsilon3_LLL]
    refine Finset.sum_congr rfl fun l _ => ?_
    rw [← chi_mul_sqrt]
    ring
  refine ⟨hLLL, ?_⟩
  funext i j k
  simp only [epsilon3_LUU, spec_epsilon3_LUU, hLLL]
  refine Finset.sum_congr rfl fun m _ => Finset.sum_congr rfl fun n _ => ?_
  ring

/-- C6: the assembled E and B tensors follow the claimed formulas: `K_tensor`
is `A/chi + (1/3) h K / chi`, the covariant derivative of K is its partial
derivative minus physical-Christoffel contractions on both indices, `B` is the
contraction of `epsilon3_LUU` with that covariant derivative, and `E` is
`Ricci + K K_tensor` minus the physical-metric contraction of two extrinsic
curvature factors. -/
theorem C6_EB_assembly (vars : Vars ℝ) (d1 : Vars (Fin 3 → ℝ))
    (d2 : Diff2Vars (Fin 3 → Fin 3 → ℝ)) (coords : Coordinates) :
    (∀ i j, K_tensor vars i j = spec_K_tensor vars i j) ∧
      (∀ i j k,
        covariant_deriv_K_tensor vars d1
            (compute_phys_chris d1.chi vars.chi vars.h (compute_inverse_sym vars.h)
              (compute_christoffel d1.h (compute_inverse_sym vars.h)).ULL) i j k =
          spec_covariant_deriv_K vars d1
            (compute_phys_chris d1.chi vars.chi vars.h (compute_inverse_sym vars.h)
              (compute_christoffel d1.h (compute_inverse_sym vars.h)).ULL) i j k) ∧
      (∀ i j,
        (compute_EB_fields vars d1 d2 coords).B i j =
          ∑ k, ∑ l,
            epsilon3_LUU vars (compute_inverse_sym vars.h) i k l *
              spec_covariant_deriv_K vars d1
                (compute_phys_chris d1.chi vars.chi vars.h (compute_inverse_sym vars.h)
                  (compute_christoffel d1.h (compute_inverse_sym vars.h)).ULL) l j k) ∧
      ∀ i j,
        (compute_EB_fields vars d1 d2 coords).E i j =
          (compute_ricci vars d1 d2 (compute_inverse_sym vars.h)
                (compute_christoffel d1.h (compute_inverse_sym vars.h))).LL i j +
            vars.K * spec_K_tensor vars i j -
            ∑ k, ∑ l,
              spec_K_tensor vars i k * spec_K_tensor vars l j *
                compute_inverse_sym vars.h k l * vars.chi := by
  have hK : ∀ i j, K_tensor vars i j = spec_K_tensor vars i j := by
    intro i j
    simp only [K_tensor, spec_K_tensor]
    ring
  have hcov : ∀ (cp : Fin 3 → Fin 3 → Fin 3 → ℝ) (i j k : Fin 3),
      covariant_deriv_K_tensor vars d1 cp i j k =
        spec_covariant_deriv_K vars d1 cp i j k := by
    intro cp i j k
    simp only [covariant_deriv_K_tensor, spec_covariant_deriv_K, hK]
    rw [sub_eq_add_neg, ← Finset.sum_neg_distrib]
    refine congrArg (fun t => d1_K_tensor vars d1 i j k + t) ?_
    refine Finset.sum_congr rfl fun l _ => ?_
    ring
  refine ⟨hK, fun i j k => hcov _ i j k, ?_, ?_⟩
  · intro i j
    simp only [compute_EB_fields]
    exact Finset.sum_congr rfl fun k _ => Finset.sum_congr rfl fun l _ => by
      rw [hcov]
  · intro i j
    simp only [compute_EB_fields, hK]
    rw [sub_eq_add_neg, ← Finset.sum_neg_distrib]
    refine congrArg (fun t =>
      (compute_ricci vars d1 d2 (compute_inverse_sym vars.h)
        (compute_christoffel d1.h (compute_inverse_sym vars.h))).LL i j +
        vars.K * spec_K_tensor vars i j + t) ?_
    refine Finset.sum_congr rfl fun k _ => ?_
    rw [← Finset.sum_neg_distrib]
    refine Finset.sum_congr rfl fun l _ => ?_
    ring

/-- C5: the tetrad construction performs the Gram-Schmidt sweep in exactly the
fixed order v, then u, then w, with every inner product taken with the physical
metric `h[i][j]/chi` for the floored conformal factor. -/
theorem C5_gram_schmidt_order (vars : Vars ℝ) (coords : Coordinates) :
    (compute_null_tetrad vars coords).v =
        (spec_gram_schmidt (spec_inner vars) (tetrad_u0 coords) (tetrad_v0 coords)
            (tetrad_w0 vars coords)).1 ∧
      (compute_null_tetrad vars coords).u =
        (spec_gram_schmidt (spec_inner vars) (tetrad_u0 coords) (tetrad_v0 coords)
            (tetrad_w0 vars coords)).2.1 ∧
      (compute_null_tetrad vars coords).w =
        (spec_gram_schmidt (spec_inner vars) (tetrad_u0 coords) (tetrad_v0 coords)
            (tetrad_w0 vars coords)).2.2 := by
  have hw : ∀ a b : Fin 3 → ℝ,
      (∑ i, ∑ j, a i * b j * vars.h i j / tetrad_chi vars) = spec_inner vars a b := by
    intro a b
    simp only [spec_inner, tetrad_chi]
    exact Finset.sum_congr rfl fun i _ => Finset.sum_congr rfl fun j _ => by ring
  have hv : tetrad_v1 vars coords =
      spec_gs_normalize (spec_inner vars) (tetrad_v0 coords) := by
    funext i
    simp only [tetrad_v1, spec_gs_normalize, omega_11, hw]
  have hu1 : tetrad_u1 vars coords = fun i =>
      tetrad_u0 coords i -
        spec_inner vars (spec_gs_normalize (spec_inner vars) (tetrad_v0 coords))
            (tetrad_u0 coords) *
          spec_gs_normalize (spec_inner vars) (tetrad_v0 coords) i := by
    funext i
    simp only [tetrad_u1, omega_12, hv, hw]
    ring
  have hu : tetrad_u2 vars coords =
      spec_gs_normalize (spec_inner vars) (fun i =>
        tetrad_u0 coords i -
          spec_inner vars (spec_gs_normalize (spec_inner vars) (tetrad_v0 coords))
              (tetrad_u0 coords) *
            spec_gs_normalize (spec_inner vars) (tetrad_v0 coords) i) := by
    funext i
    simp only [tetrad_u2, omega_22, hu1, hw, spec_gs_normalize]
  have hw1 : tetrad_w1 vars coords = fun i =>
      tetrad_w0 vars coords i -
        (spec_inner vars (spec_gs_normalize (spec_inner vars) (tetrad_v0 coords))
              (tetrad_w0 vars coords) *
            spec_gs_normalize (spec_inner vars) (tetrad_v0 coords) i +
          spec_inner vars
              (spec_gs_normalize (spec_inner vars) (fun i =>
                tetrad_u0 coords i -
                  spec_inner vars
                      (spec_gs_normalize (spec_inner vars) (tetrad_v0 coords))
                      (tetrad_u0 coords) *
                    spec_gs_normalize (spec_inner vars) (tetrad_v0 coords) i))
              (tetrad_w0 vars coords) *
            spec_gs_normalize (spec_inner vars) (fun i =>
              tetrad_u0 coords i -
                spec_inner vars
                    (spec_gs_normalize (spec_inner vars) (tetrad_v0 coords))
                    (tetrad_u0 coords) *
                  spec_gs_normalize (spec_inner vars) (tetrad_v0 coords) i) i) := by
    funext i
    simp only [tetrad_w1, omega_13, omega_23, hv, hu, hw]
    ring
  have hwfin : tetrad_w2 vars coords =
      spec_gs_normalize (spec_inner vars) (fun i =>
        tetrad_w0 vars coords i -
          (spec_inner vars (spec_gs_normalize (spec_inner vars) (tetrad_v0 coords))
                (tetrad_w0 vars coords) *
              spec_gs_normalize (spec_inner vars) (tetrad_v0 coords) i +
            spec_inner vars
                (spec_gs_normalize (spec_inner vars) (fun i =>
                  tetrad_u0 coords i -
                    spec_inner vars
                        (spec_gs_normalize (spec_inner vars) (tetrad_v0 coords))
                        (tetrad_u0 coords) *
                      spec_gs_normalize (spec_inner vars) (tetrad_v0 coords) i))
                (tetrad_w0 vars coords) *
              spec_gs_normalize (spec_inner vars) (fun i =>
                tetrad_u0 coords i -
                  spec_inner vars
                      (spec_gs_normalize (spec_inner vars) (tetrad_v0 coords))
                      (tetrad_u0 coords) *
                    spec_gs_normalize (spec_inner vars) (tetrad_v0 coords) i) i)) := by
    funext i
    simp only [tetrad_w2, omega_33, hw1, hw, spec_gs_normalize]
  exact ⟨hv, hu, hwfin⟩

/-- C4: with flat-space inputs (unit chi and lapse, identity conformal metric,
vanishing A, K, shift and all derivatives), the E and B tensors vanish in every
component, and hence the Newman-Penrose scalar is zero at every coordinate
point. -/
theorem C4_flat_space_zero (coords : Coordinates) :
    (∀ i j, (compute_EB_fields flatVars zeroD1 zeroD2 coords).E i j = 0) ∧
      (∀ i j, (compute_EB_fields flatVars zeroD1 zeroD2 coords).B i j = 0) ∧
      (Weyl4_compute flatVars zeroD1 zeroD2 coords).Real = 0 ∧
      (Weyl4_compute flatVars zeroD1 zeroD2 coords).Im = 0 := by
  have hE0 : ∀ i j, (compute_EB_fields flatVars zeroD1 zeroD2 coords).E i j = 0 := by
    intro i j
    simp [compute_EB_fields, flatVars, zeroD1, zeroD2, K_tensor, compute_ricci,
      ricci_chi, ricci_tilde, covdtilde2chi, contracted_chris, d1_contracted_chris,
      d1_h_UU, d1_chris_LLL, compute_christoffel, chris_LLL]
  have hB0 : ∀ i j, (compute_EB_fields flatVars zeroD1 zeroD2 coords).B i j = 0 := by
    intro i j
    simp [compute_EB_fields, flatVars, zeroD1, zeroD2, K_tensor, d1_K_tensor,
      covariant_deriv_K_tensor, compute_phys_chris, compute_christoffel, chris_LLL]
  refine ⟨hE0, hB0, ?_, ?_⟩ <;>
  · simp only [Weyl4_compute, compute_Weyl4]
    rw [Finset.sum_eq_zero]
    intro i _
    rw [Finset.sum_eq_zero]
    intro j _
    rw [hE0, hB0]
    ring

/-- Variable bundle with a conformal factor far below the 1e-4 floor and a
nonzero trace-free A, otherwise flat. -/
def cexVars : Vars ℝ where
  chi := 1e-8
  h := fun i j => if i = j then 1 else 0
  K := 0
  A := fun i j => if i = 0 ∧ j = 0 then 1 else if i = 1 ∧ j = 1 then -1 else 0
  lapse := 1
  shift := fun _ => 0

/-- C2 counterexample: `compute_EB_fields` divides by the raw conformal factor,
not the floored one; at `chi = 1e-8` its E output differs from the output on
the floored bundle, so the claim that every division in the core uses the
floored value is false. -/
theorem C2_counterexample :
    (compute_EB_fields cexVars zeroD1 zeroD2 originCoords).E 0 0 ≠
      (compute_EB_fields { cexVars with chi := simd_max cexVars.chi 1e-4 }
          zeroD1 zeroD2 originCoords).E 0 0 := by
  have h1 : (compute_EB_fields cexVars zeroD1 zeroD2 originCoords).E 0 0 = -1e8 := by
    simp [compute_EB_fields, cexVars, zeroD1, zeroD2, K_tensor, compute_ricci,
      ricci_chi, ricci_tilde, covdtilde2chi, contracted_chris, d1_contracted_chris,
      d1_h_UU, d1_chris_LLL, compute_christoffel, chris_LLL, compute_inverse_sym,
      compute_determinant_sym, Fin.sum_univ_three]
    norm_num
  have h2 : (compute_EB_fields { cexVars with chi := simd_max cexVars.chi 1e-4 }
      zeroD1 zeroD2 originCoords).E 0 0 = -1e4 := by
    have hm : simd_max cexVars.chi 1e-4 = 1e-4 := by
      simp [simd_max, cexVars]
      norm_num
    simp [compute_EB_fields, hm, cexVars, zeroD1, zeroD2, K_tensor, compute_ricci,
      ricci_chi, ricci_tilde, covdtilde2chi, contracted_chris, d1_contracted_chris,
      d1_h_UU, d1_chris_LLL, compute_christoffel, chris_LLL, compute_inverse_sym,
      compute_determinant_sym, Fin.sum_univ_three]
    norm_num [simd_max, max_eq_right]
  rw [h1, h2]
  norm_num

/-- C2 (amended): the conformal-factor floor `max(chi, 1e-4)` is applied in
`compute_null_tetrad`, whose result therefore does not change if chi is floored
beforehand; `compute_EB_fields` instead divides by the raw conformal factor
(see the counterexample). -/
theorem C2_tetrad_uses_floored_chi (vars : Vars ℝ) (coords : Coordinates) :
    compute_null_tetrad vars coords =
      compute_null_tetrad { vars with chi := simd_max vars.chi 1e-4 } coords := by
  have hmax : simd_max (simd_max vars.chi 1e-4) 1e-4 = simd_max vars.chi 1e-4 := by
    simp [simd_max, max_assoc]
  have hu : tetrad_u2 vars coords =
      tetrad_u2 { vars with chi := simd_max vars.chi 1e-4 } coords := by
    funext i
    simp only [tetrad_u2, tetrad_u1, tetrad_v1, tetrad_u0, tetrad_v0, tetrad_chi,
      omega_11, omega_12, omega_22, hmax]
  have hv : tetrad_v1 vars coords =
      tetrad_v1 { vars with chi := simd_max vars.chi 1e-4 } coords := by
    funext i
    simp only [tetrad_v1, tetrad_v0, tetrad_chi, omega_11, hmax]
  have hweq : tetrad_w2 vars coords =
      tetrad_w2 { vars with chi := simd_max vars.chi 1e-4 } coords := by
    funext i
    simp only [tetrad_w2, tetrad_w1, tetrad_w0, tetrad_u2, tetrad_u1, tetrad_v1,
      tetrad_u0, tetrad_v0, tetrad_chi, omega_11, omega_12, omega_22, omega_13,
      omega_23, omega_33, hmax]
  simp only [compute_null_tetrad, hu, hv, hweq]

lemma epsilon4_spatial : ∀ i j k : Fin 3, epsilon4 (sp i) (sp j) (sp k) 3 = epsilon3 i j k := by
  decide

lemma inverse_sym_symm (m : Fin 3 → Fin 3 → ℝ) (i j : Fin 3) :
    compute_inverse_sym m i j = compute_inverse_sym m j i := by
  fin_cases i <;> fin_cases j <;> rfl

lemma flatVars_chi : flatVars.chi = 1 := rfl

lemma flatVars_K : flatVars.K = 0 := rfl

lemma flatVars_lapse : flatVars.lapse = 1 := rfl

lemma flatVars_shift (i : Fin 3) : flatVars.shift i = 0 := rfl

lemma flatVars_A (i j : Fin 3) : flatVars.A i j = 0 := rfl

lemma flatVars_h (i j : Fin 3) : flatVars.h i j = if i = j then 1 else 0 := rfl

lemma n_U_zero (vars : Vars ℝ) : n_U vars 0 = -vars.shift 0 / vars.lapse := rfl

lemma n_U_one (vars : Vars ℝ) : n_U vars 1 = -vars.shift 1 / vars.lapse := rfl

lemma n_U_two (vars : Vars ℝ) : n_U vars 2 = -vars.shift 2 / vars.lapse := rfl

lemma n_U_three (vars : Vars ℝ) : n_U vars 3 = 1 / vars.lapse := rfl

lemma inverse_sym_flat (a b : Fin 3) :
    compute_inverse_sym flatVars.h a b = (if a = b then (1 : ℝ) else 0) := by
  fin_cases a <;> fin_cases b <;>
    norm_num [compute_inverse_sym, compute_determinant_sym, flatVars_h, Fin.ext_iff]

lemma epsilon3_LLL_flat (i j k : Fin 3) :
    epsilon3_LLL flatVars i j k = (epsilon3 i j k : ℝ) := by
  have h4 : ((epsilon4 (sp i) (sp j) (sp k) 3 : ℤ) : ℝ) = ((epsilon3 i j k : ℤ) : ℝ) := by
    rw [epsilon4_spatial]
  simp [epsilon3_LLL, Fin.sum_univ_four, n_U_zero, n_U_one, n_U_two, n_U_three,
    flatVars_chi, flatVars_lapse, flatVars_shift, h4]

lemma epsilon3_LUU_flat (i j k : Fin 3) :
    epsilon3_LUU flatVars (compute_inverse_sym flatVars.h) i j k = (epsilon3 i j k : ℝ) := by
  simp [epsilon3_LUU, inverse_sym_flat, epsilon3_LLL_flat, flatVars_chi,
    Fin.sum_univ_three]

lemma cexD1_chi (k : Fin 3) : cexD1.chi k = 0 := rfl

lemma cexD1_h (i j k : Fin 3) : cexD1.h i j k = 0 := rfl

lemma cexD1_K (k : Fin 3) : cexD1.K k = 0 := rfl

lemma cexD1_A (i j k : Fin 3) :
    cexD1.A i j k = if i = 0 ∧ j = 0 ∧ k = 1 then 1 else 0 := rfl

/-- C1 counterexample: with flat-space values and a single nonzero first
derivative of `A` (a valid finite input with all required symmetries), the
returned B tensor is not symmetric: `B[2][0] = -1` while `B[0][2] = 0`. -/
theorem C1_counterexample :
    (compute_EB_fields flatVars cexD1 zeroD2 originCoords).B 2 0 ≠
      (compute_EB_fields flatVars cexD1 zeroD2 originCoords).B 0 2 := by
  have hKt : ∀ i j : Fin 3, K_tensor flatVars i j = 0 := by
    intro i j
    simp [K_tensor, flatVars_A, flatVars_h, flatVars_K, flatVars_chi]
  have hcp : ∀ a b c : Fin 3,
      compute_phys_chris cexD1.chi flatVars.chi flatVars.h
        (compute_inverse_sym flatVars.h)
        (compute_christoffel cexD1.h (compute_inverse_sym flatVars.h)).ULL a b c = 0 := by
    intro a b c
    simp [compute_phys_chris, compute_christoffel, chris_LLL, cexD1_h, cexD1_chi]
  have hcov : ∀ l j k : Fin 3,
      covariant_deriv_K_tensor flatVars cexD1
        (compute_phys_chris cexD1.chi flatVars.chi flatVars.h
          (compute_inverse_sym flatVars.h)
          (compute_christoffel cexD1.h (compute_inverse_sym flatVars.h)).ULL) l j k =
        if l = 0 ∧ j = 0 ∧ k = 1 then 1 else 0 := by
    intro l j k
    simp [covariant_deriv_K_tensor, d1_K_tensor, hcp, hKt, cexD1_A, cexD1_chi,
      cexD1_h, cexD1_K, flatVars_chi, flatVars_K, flatVars_h]
  have h20 : (compute_EB_fields flatVars cexD1 zeroD2 originCoords).B 2 0 = -1 := by
    have he : epsilon3 2 1 0 = -1 := by decide
    simp [compute_EB_fields, epsilon3_LUU_flat, hcov, Fin.sum_univ_three, he]
  have h02 : (compute_EB_fields flatVars cexD1 zeroD2 originCoords).B 0 2 = 0 := by
    simp [compute_EB_fields, epsilon3_LUU_flat, hcov, Fin.sum_univ_three]
  rw [h20, h02]
  norm_num

lemma sum4_rev (f : Fin 3 → Fin 3 → Fin 3 → Fin 3 → ℝ) :
    (∑ k, ∑ l, ∑ m, ∑ a, f k l m a) = ∑ k, ∑ l, ∑ m, ∑ a, f a m l k := by
  calc (∑ k, ∑ l, ∑ m, ∑ a, f k l m a)
      = ∑ k, ∑ l, ∑ a, ∑ m, f k l m a :=
        Finset.sum_congr rfl fun k _ => Finset.sum_congr rfl fun l _ => Finset.sum_comm
    _ = ∑ k, ∑ a, ∑ l, ∑ m, f k l m a :=
        Finset.sum_congr rfl fun k _ => Finset.sum_comm
    _ = ∑ a, ∑ k, ∑ l, ∑ m, f k l m a := Finset.sum_comm
    _ = ∑ a, ∑ k, ∑ m, ∑ l, f k l m a :=
        Finset.sum_congr rfl fun a _ => Finset.sum_congr rfl fun k _ => Finset.sum_comm
    _ = ∑ a, ∑ m, ∑ k, ∑ l, f k l m a :=
        Finset.sum_congr rfl fun a _ => Finset.sum_comm
    _ = ∑ a, ∑ m, ∑ l, ∑ k, f k l m a :=
        Finset.sum_congr rfl fun a _ => Finset.sum_congr rfl fun m _ => Finset.sum_comm

lemma ricci_triple_sym (hUU : Fin 3 → Fin 3 → ℝ) (LLL : Fin 3 → Fin 3 → Fin 3 → ℝ)
    (hUUs : ∀ a b, hUU a b = hUU b a) (hLs : ∀ a b c, LLL a b c = LLL a c b)
    (i j : Fin 3) :
    (∑ k, ∑ l, ∑ m, hUU l m *
        ((∑ a, hUU k a * LLL a l i) * LLL j k m + (∑ a, hUU k a * LLL a l j) * LLL i k m +
          (∑ a, hUU k a * LLL a i m) * LLL k l j)) =
      ∑ k, ∑ l, ∑ m, hUU l m *
        ((∑ a, hUU k a * LLL a l j) * LLL i k m + (∑ a, hUU k a * LLL a l i) * LLL j k m +
          (∑ a, hUU k a * LLL a j m) * LLL k l i) := by
  have hsplit : ∀ p q r : Fin 3 → Fin 3 → Fin 3 → ℝ,
      (∑ k, ∑ l, ∑ m, hUU l m * (p k l m + q k l m + r k l m)) =
        ((∑ k, ∑ l, ∑ m, hUU l m * p k l m) + ∑ k, ∑ l, ∑ m, hUU l m * q k l m) +
          ∑ k, ∑ l, ∑ m, hUU l m * r k l m := by
    intro p q r
    simp only [mul_add, Finset.sum_add_distrib]
  rw [hsplit, hsplit]
  refine congrArg₂ (· + ·) (add_comm _ _) ?_
  have hpush : ∀ x y : Fin 3,
      (∑ k, ∑ l, ∑ m, hUU l m * ((∑ a, hUU k a * LLL a x m) * LLL k l y)) =
        ∑ k, ∑ l, ∑ m, ∑ a, hUU l m * (hUU k a * LLL a x m * LLL k l y) := by
    intro x y
    refine Finset.sum_congr rfl fun k _ => Finset.sum_congr rfl fun l _ =>
      Finset.sum_congr rfl fun m _ => ?_
    rw [Finset.sum_mul, Finset.mul_sum]
  rw [hpush, hpush, sum4_rev]
  refine Finset.sum_congr rfl fun k _ => Finset.sum_congr rfl fun l _ =>
    Finset.sum_congr rfl fun m _ => Finset.sum_congr rfl fun a _ => ?_
  rw [hUUs m l, hUUs a k, hLs k i l, hLs a m j,
    mul_right_comm (hUU k a) (LLL k l i) (LLL a j m)]

lemma chris_LLL_last_symm (d1h : Fin 3 → Fin 3 → Fin 3 → ℝ)
    (hd1h : ∀ i j k, d1h i j k = d1h j i k) (i j k : Fin 3) :
    chris_LLL d1h i j k = chris_LLL d1h i k j := by
  simp only [chris_LLL]
  rw [hd1h j k i]
  ring

lemma ricci_LL_symm (vars : Vars ℝ) (d1 : Vars (Fin 3 → ℝ))
    (d2 : Diff2Vars (Fin 3 → Fin 3 → ℝ))
    (hsymh : ∀ i j, vars.h i j = vars.h j i)
    (hd1h : ∀ i j k, d1.h i j k = d1.h j i k)
    (hd2h : ∀ i j k l, d2.h i j k l = d2.h j i k l)
    (hd2chi : ∀ k l, d2.chi k l = d2.chi l k) (i j : Fin 3) :
    (compute_ricci vars d1 d2 (compute_inverse_sym vars.h)
        (compute_christoffel d1.h (compute_inverse_sym vars.h))).LL i j =
      (compute_ricci vars d1 d2 (compute_inverse_sym vars.h)
        (compute_christoffel d1.h (compute_inverse_sym vars.h))).LL j i := by
  have hUUs := inverse_sym_symm vars.h
  have hLs : ∀ a b c, chris_LLL d1.h a b c = chris_LLL d1.h a c b :=
    chris_LLL_last_symm d1.h hd1h
  have hULLs : ∀ a b c,
      (compute_christoffel d1.h (compute_inverse_sym vars.h)).ULL a b c =
        (compute_christoffel d1.h (compute_inverse_sym vars.h)).ULL a c b := by
    intro a b c
    simp only [compute_christoffel]
    exact Finset.sum_congr rfl fun l _ => by rw [hLs l b c]
  have hcov2 : ∀ a b,
      covdtilde2chi d1 d2 (compute_christoffel d1.h (compute_inverse_sym vars.h)) a b =
        covdtilde2chi d1 d2 (compute_christoffel d1.h (compute_inverse_sym vars.h)) b a := by
    intro a b
    simp only [covdtilde2chi]
    rw [hd2chi a b]
    refine congrArg (fun t => d2.chi b a - t) ?_
    exact Finset.sum_congr rfl fun m _ => by rw [hULLs m a b]
  have hchi : ricci_chi vars d1 d2 (compute_inverse_sym vars.h)
      (compute_christoffel d1.h (compute_inverse_sym vars.h)) i j =
        ricci_chi vars d1 d2 (compute_inverse_sym vars.h)
          (compute_christoffel d1.h (compute_inverse_sym vars.h)) j i := by
    simp only [ricci_chi]
    rw [hcov2 i j, hsymh i j, mul_comm (d1.chi i) (d1.chi j)]
  have htilde : ricci_tilde vars d1 d2 (compute_inverse_sym vars.h)
      (compute_christoffel d1.h (compute_inverse_sym vars.h)) i j =
        ricci_tilde vars d1 d2 (compute_inverse_sym vars.h)
          (compute_christoffel d1.h (compute_inverse_sym vars.h)) j i := by
    simp only [ricci_tilde]
    refine congrArg₂ (· + ·) (congrArg₂ (· + ·) ?_ ?_) ?_
    · exact Finset.sum_congr rfl fun k _ => by ring
    · exact Finset.sum_congr rfl fun k _ => Finset.sum_congr rfl fun l _ => by
        rw [hd2h i j k l]
    · have htr := ricci_triple_sym (compute_inverse_sym vars.h) (chris_LLL d1.h)
        hUUs hLs i j
      simp only [compute_christoffel]
      exact htr
  simp only [compute_ricci]
  rw [hchi, htilde]

/-- C1 (amended): for valid inputs (symmetric `h` and `A`, derivative bundles of
symmetric fields), the E tensor returned by `compute_EB_fields` is always
symmetric; the B tensor is not symmetric for arbitrary finite derivative values
(see the counterexample), but is symmetric whenever the first-derivative bundle
vanishes. -/
theorem C1_E_symmetric_B_conditional (vars : Vars ℝ) (d1 : Vars (Fin 3 → ℝ))
    (d2 : Diff2Vars (Fin 3 → Fin 3 → ℝ)) (coords : Coordinates)
    (hsymh : ∀ i j, vars.h i j = vars.h j i)
    (hsymA : ∀ i j, vars.A i j = vars.A j i)
    (hd1h : ∀ i j k, d1.h i j k = d1.h j i k)
    (hd2h : ∀ i j k l, d2.h i j k l = d2.h j i k l)
    (hd2chi : ∀ k l, d2.chi k l = d2.chi l k) :
    (∀ i j, (compute_EB_fields vars d1 d2 coords).E i j =
        (compute_EB_fields vars d1 d2 coords).E j i) ∧
      ∀ (vars' : Vars ℝ) (d2' : Diff2Vars (Fin 3 → Fin 3 → ℝ))
        (coords' : Coordinates) (i j : Fin 3),
        (compute_EB_fields vars' zeroD1 d2' coords').B i j =
          (compute_EB_fields vars' zeroD1 d2' coords').B j i := by
  constructor
  · intro i j
    have hKt : ∀ a b, K_tensor vars a b = K_tensor vars b a := by
      intro a b
      simp only [K_tensor]
      rw [hsymA a b, hsymh a b]
    simp only [compute_EB_fields]
    rw [ricci_LL_symm vars d1 d2 hsymh hd1h hd2h hd2chi i j, hKt i j]
    congr 1
    rw [Finset.sum_comm]
    refine Finset.sum_congr rfl fun k _ => Finset.sum_congr rfl fun l _ => ?_
    rw [hKt i l, hKt k j, inverse_sym_symm vars.h l k]
    ring
  · intro vars' d2' coords' i j
    have hB0 : ∀ a b, (compute_EB_fields vars' zeroD1 d2' coords').B a b = 0 := by
      intro a b
      simp [compute_EB_fields, zeroD1, d1_K_tensor, covariant_deriv_K_tensor,
        compute_phys_chris, compute_christoffel, chris_LLL]
    rw [hB0, hB0]

/-- Witness for the amended C1 at flat-space inputs. -/
theorem C1_witness :
    (∀ i j : Fin 3, flatVars.h i j = flatVars.h j i) ∧
      ((∀ i j, (compute_EB_fields flatVars zeroD1 zeroD2 originCoords).E i j =
          (compute_EB_fields flatVars zeroD1 zeroD2 originCoords).E j i) ∧
        ∀ (vars' : Vars ℝ) (d2' : Diff2Vars (Fin 3 → Fin 3 → ℝ))
          (coords' : Coordinates) (i j : Fin 3),
          (compute_EB_fields vars' zeroD1 d2' coords').B i j =
            (compute_EB_fields vars' zeroD1 d2' coords').B j i) :=
  have hs : ∀ i j : Fin 3, flatVars.h i j = flatVars.h j i := by
    intro i j
    fin_cases i <;> fin_cases j <;> rfl
  ⟨hs, C1_E_symmetric_B_conditional flatVars zeroD1 zeroD2 originCoords hs
    (fun _ _ => rfl) (fun _ _ _ => rfl) (fun _ _ _ _ => rfl) (fun _ _ => rfl)⟩

/-- The physical 3-metric `g[i][j] = h[i][j] / chi` with the floored conformal
factor, as a matrix. -/
def physMetric (vars : Vars ℝ) : Matrix (Fin 3) (Fin 3) ℝ :=
  Matrix.of fun i j => vars.h i j / tetrad_chi vars

lemma tetrad_chi_pos (vars : Vars ℝ) : 0 < tetrad_chi vars := by
  have : (0 : ℝ) < 1e-4 := by norm_num
  exact lt_of_lt_of_le this (le_max_right _ _)

lemma physMetric_symm (vars : Vars ℝ) (hpd : Matrix.PosDef (physMetric vars))
    (i j : Fin 3) : vars.h i j = vars.h j i := by
  have h1 := congrFun (congrFun hpd.1 j) i
  rw [Matrix.conjTranspose_apply] at h1
  have h2 : physMetric vars i j = physMetric vars j i := by
    simpa using h1
  simp only [physMetric, Matrix.of_apply] at h2
  have hc := (tetrad_chi_pos vars).ne'
  field_simp at h2
  exact h2

lemma quad_h_pos (vars : Vars ℝ) (hpd : Matrix.PosDef (physMetric vars))
    (a : Fin 3 → ℝ) (ha : a ≠ 0) : 0 < ∑ i, ∑ j, a i * a j * vars.h i j := by
  have h2 := hpd.2 a ha
  have hs : star a = a := by
    funext i
    simp
  rw [hs] at h2
  have hb : Matrix.dotProduct a ((physMetric vars).mulVec a) =
      (∑ i, ∑ j, a i * a j * vars.h i j) / tetrad_chi vars := by
    simp only [Matrix.dotProduct, Matrix.mulVec, physMetric, Matrix.of_apply,
      Finset.sum_div, Finset.mul_sum]
    refine Finset.sum_congr rfl fun i _ => Finset.sum_congr rfl fun j _ => ?_
    ring
  rw [hb] at h2
  have hc := tetrad_chi_pos vars
  have h3 := mul_pos h2 hc
  rwa [div_mul_cancel₀ _ hc.ne'] at h3

lemma spec_inner_add_left (vars : Vars ℝ) (a b c : Fin 3 → ℝ) :
    spec_inner vars (fun i => a i + b i) c = spec_inner vars a c + spec_inner vars b c := by
  simp only [spec_inner, Fin.sum_univ_three]
  ring

lemma spec_inner_smul_left (vars : Vars ℝ) (r : ℝ) (a b : Fin 3 → ℝ) :
    spec_inner vars (fun i => r * a i) b = r * spec_inner vars a b := by
  simp only [spec_inner, Fin.sum_univ_three]
  ring

lemma spec_inner_symm (vars : Vars ℝ) (hpd : Matrix.PosDef (physMetric vars))
    (a b : Fin 3 → ℝ) : spec_inner vars a b = spec_inner vars b a := by
  simp only [spec_inner, Fin.sum_univ_three]
  rw [physMetric_symm vars hpd 1 0, physMetric_symm vars hpd 2 0,
    physMetric_symm vars hpd 2 1]
  ring

lemma spec_inner_pos (vars : Vars ℝ) (hpd : Matrix.PosDef (physMetric vars))
    (a : Fin 3 → ℝ) (ha : a ≠ 0) : 0 < spec_inner vars a a := by
  have hq := quad_h_pos vars hpd a ha
  have hc := tetrad_chi_pos vars
  have : spec_inner vars a a = (∑ i, ∑ j, a i * a j * vars.h i j) / tetrad_chi vars := by
    simp only [spec_inner, simd_max, tetrad_chi, Finset.sum_div]
    refine Finset.sum_congr rfl fun i _ => Finset.sum_congr rfl fun j _ => ?_
    ring
  rw [this]
  exact div_pos hq hc

lemma omega_11_eq (vars : Vars ℝ) (coords : Coordinates) :
    omega_11 vars coords = spec_inner vars (tetrad_v0 coords) (tetrad_v0 coords) := by
  simp only [omega_11, spec_inner]
  exact Finset.sum_congr rfl fun i _ => Finset.sum_congr rfl fun j _ => by
    rw [tetrad_chi]; ring

lemma omega_12_eq (vars : Vars ℝ) (coords : Coordinates) :
    omega_12 vars coords = spec_inner vars (tetrad_v1 vars coords) (tetrad_u0 coords) := by
  simp only [omega_12, spec_inner]
  exact Finset.sum_congr rfl fun i _ => Finset.sum_congr rfl fun j _ => by
    rw [tetrad_chi]; ring

lemma omega_22_eq (vars : Vars ℝ) (coords : Coordinates) :
    omega_22 vars coords = spec_inner vars (tetrad_u1 vars coords) (tetrad_u1 vars coords) := by
  simp only [omega_22, spec_inner]
  exact Finset.sum_congr rfl fun i _ => Finset.sum_congr rfl fun j _ => by
    rw [tetrad_chi]; ring

lemma omega_13_eq (vars : Vars ℝ) (coords : Coordinates) :
    omega_13 vars coords = spec_inner vars (tetrad_v1 vars coords) (tetrad_w0 vars coords) := by
  simp only [omega_13, spec_inner]
  exact Finset.sum_congr rfl fun i _ => Finset.sum_congr rfl fun j _ => by
    rw [tetrad_chi]; ring

lemma omega_23_eq (vars : Vars ℝ) (coords : Coordinates) :
    omega_23 vars coords = spec_inner vars (tetrad_u2 vars coords) (tetrad_w0 vars coords) := by
  simp only [omega_23, spec_inner]
  exact Finset.sum_congr rfl fun i _ => Finset.sum_congr rfl fun j _ => by
    rw [tetrad_chi]; ring

lemma omega_33_eq (vars : Vars ℝ) (coords : Coordinates) :
    omega_33 vars coords = spec_inner vars (tetrad_w1 vars coords) (tetrad_w1 vars coords) := by
  simp only [omega_33, spec_inner]
  exact Finset.sum_congr rfl fun i _ => Finset.sum_congr rfl fun j _ => by
    rw [tetrad_chi]; ring

lemma det3_eq_det (m : Fin 3 → Fin 3 → ℝ) (hsym : ∀ i j, m i j = m j i) :
    compute_determinant_sym m = (Matrix.of m).det := by
  rw [Matrix.det_fin_three]
  simp only [Matrix.of_apply, compute_determinant_sym]
  rw [hsym 1 0, hsym 2 0, hsym 2 1]
  ring

lemma h_det3_pos (vars : Vars ℝ) (hpd : Matrix.PosDef (physMetric vars)) :
    0 < compute_determinant_sym vars.h := by
  have hc := tetrad_chi_pos vars
  have hm : Matrix.of vars.h = tetrad_chi vars • physMetric vars := by
    ext i j
    simp only [Matrix.of_apply, Matrix.smul_apply, physMetric, smul_eq_mul]
    field_simp
  rw [det3_eq_det vars.h (physMetric_symm vars hpd), hm, Matrix.det_smul,
    Fintype.card_fin]
  exact mul_pos (pow_pos hc 3) hpd.det_pos

lemma inverse_sym_correct (m : Fin 3 → Fin 3 → ℝ) (hsym : ∀ i j, m i j = m j i)
    (hdet : compute_determinant_sym m ≠ 0) (i j : Fin 3) :
    (∑ k, m i k * compute_inverse_sym m k j) = if i = j then (1 : ℝ) else 0 := by
  rcases eq_or_ne i j with rfl | hne
  · rw [if_pos rfl]
    fin_cases i <;>
    · simp only [Fin.sum_univ_three, compute_inverse_sym,
        show (⟨0, by omega⟩ : Fin 3) = (0 : Fin 3) from rfl,
        show (⟨1, by omega⟩ : Fin 3) = (1 : Fin 3) from rfl,
        show (⟨2, by omega⟩ : Fin 3) = (2 : Fin 3) from rfl]
      norm_num [hsym 1 0, hsym 2 0, hsym 2 1]
      field_simp
      simp only [compute_determinant_sym]
      ring
  · rw [if_neg hne]
    fin_cases i <;> fin_cases j <;>
    first
    | exact absurd rfl hne
    | (simp only [Fin.sum_univ_three, compute_inverse_sym,
         show (⟨0, by omega⟩ : Fin 3) = (0 : Fin 3) from rfl,
         show (⟨1, by omega⟩ : Fin 3) = (1 : Fin 3) from rfl,
         show (⟨2, by omega⟩ : Fin 3) = (2 : Fin 3) from rfl]
       norm_num [hsym 1 0, hsym 2 0, hsym 2 1]
       field_simp
       try ring)

lemma matvec_cancel (m : Fin 3 → Fin 3 → ℝ)
    (hinv : ∀ i j, (∑ k, m i k * compute_inverse_sym m k j) = if i = j then (1 : ℝ) else 0)
    (c : Fin 3 → ℝ) (i : Fin 3) :
    (∑ j, m i j * ∑ a, compute_inverse_sym m j a * c a) = c i := by
  calc (∑ j, m i j * ∑ a, compute_inverse_sym m j a * c a)
      = ∑ j, ∑ a, m i j * (compute_inverse_sym m j a * c a) := by
        exact Finset.sum_congr rfl fun j _ => Finset.mul_sum _ _ _
    _ = ∑ a, ∑ j, m i j * (compute_inverse_sym m j a * c a) := Finset.sum_comm
    _ = ∑ a, (∑ j, m i j * compute_inverse_sym m j a) * c a := by
        refine Finset.sum_congr rfl fun a _ => ?_
        rw [Finset.sum_mul]
        exact Finset.sum_congr rfl fun j _ => by ring
    _ = ∑ a, (if i = a then (1 : ℝ) else 0) * c a := by
        refine Finset.sum_congr rfl fun a _ => ?_
        rw [hinv i a]
    _ = c i := by simp

lemma epsilon3_table : ∀ a b c : Fin 3,
    epsilon3 a b c =
      if (a, b, c) = (0, 1, 2) ∨ (a, b, c) = (1, 2, 0) ∨ (a, b, c) = (2, 0, 1) then 1
      else if (a, b, c) = (0, 2, 1) ∨ (a, b, c) = (1, 0, 2) ∨ (a, b, c) = (2, 1, 0) then -1
      else 0 := by
  decide

/-- The flat cross product of the seed vectors `v` and `u`, i.e. the covector
contracted with the inverse metric inside `tetrad_w0`. -/
def cvec (coords : Coordinates) : Fin 3 → ℝ := fun j =>
  ∑ k, ∑ m, ((epsilon3 j k m : ℤ) : ℝ) * tetrad_v0 coords k * tetrad_u0 coords m

lemma cvec_val (coords : Coordinates) :
    cvec coords = ![coords.x * coords.z, coords.y * coords.z,
      -(coords.x ^ 2 + coords.y ^ 2)] := by
  funext j
  fin_cases j <;>
  · simp [cvec, Fin.sum_univ_three, epsilon3_table, tetrad_v0, tetrad_u0,
      Matrix.cons_val_zero, Matrix.cons_val_one, Matrix.head_cons,
      Matrix.cons_val_two, Matrix.tail_cons]
    try ring

lemma tetrad_w0_eq (vars : Vars ℝ) (coords : Coordinates) :
    tetrad_w0 vars coords = fun i =>
      ∑ j, 1 / Real.sqrt (tetrad_chi vars) * compute_inverse_sym vars.h i j *
        cvec coords j := by
  funext i
  simp only [tetrad_w0, cvec, Finset.mul_sum]
  refine Finset.sum_congr rfl fun j _ => Finset.sum_congr rfl fun k _ =>
    Finset.sum_congr rfl fun m _ => by ring

lemma cvec_dot_v0 (coords : Coordinates) :
    (∑ j, cvec coords j * tetrad_v0 coords j) = 0 := by
  simp [cvec_val, tetrad_v0, Fin.sum_univ_three, Matrix.cons_val_zero,
    Matrix.cons_val_one, Matrix.head_cons, Matrix.cons_val_two, Matrix.tail_cons]
  ring

lemma cvec_dot_u0 (coords : Coordinates) :
    (∑ j, cvec coords j * tetrad_u0 coords j) = 0 := by
  simp [cvec_val, tetrad_u0, Fin.sum_univ_three, Matrix.cons_val_zero,
    Matrix.cons_val_one, Matrix.head_cons, Matrix.cons_val_two, Matrix.tail_cons]
  ring

lemma cvec_ne_zero (coords : Coordinates) (hxy : coords.x ^ 2 + coords.y ^ 2 ≠ 0) :
    cvec coords ≠ 0 := by
  intro h0
  apply hxy
  have h2 := congrFun h0 2
  rw [cvec_val] at h2
  simp [Matrix.cons_val_two, Matrix.tail_cons, Matrix.head_cons] at h2
  linarith [h2]

lemma cvec_w0_pos (vars : Vars ℝ) (coords : Coordinates)
    (hpd : Matrix.PosDef (physMetric vars))
    (hxy : coords.x ^ 2 + coords.y ^ 2 ≠ 0) :
    0 < ∑ j, cvec coords j * tetrad_w0 vars coords j := by
  have hsym := physMetric_symm vars hpd
  have hdet := (h_det3_pos vars hpd).ne'
  have hinv := inverse_sym_correct vars.h hsym hdet
  have hcd : ∀ i, (∑ j, vars.h i j *
      ∑ a, compute_inverse_sym vars.h j a * cvec coords a) = cvec coords i :=
    fun i => matvec_cancel vars.h hinv (cvec coords) i
  have hdne : (fun j => ∑ a, compute_inverse_sym vars.h j a * cvec coords a) ≠ 0 := by
    intro h0
    apply cvec_ne_zero coords hxy
    funext i
    rw [← hcd i]
    have hz : ∀ j, (∑ a, compute_inverse_sym vars.h j a * cvec coords a) = 0 :=
      fun j => congrFun h0 j
    simp [hz]
  have hquad := quad_h_pos vars hpd _ hdne
  have hQ : (∑ j, cvec coords j * ∑ a, compute_inverse_sym vars.h j a * cvec coords a) =
      ∑ i, ∑ j, (∑ a, compute_inverse_sym vars.h i a * cvec coords a) *
        (∑ a, compute_inverse_sym vars.h j a * cvec coords a) * vars.h i j := by
    calc (∑ j, cvec coords j * ∑ a, compute_inverse_sym vars.h j a * cvec coords a)
        = ∑ j, (∑ a, vars.h j a * ∑ b, compute_inverse_sym vars.h a b * cvec coords b) *
            (∑ a, compute_inverse_sym vars.h j a * cvec coords a) := by
          refine Finset.sum_congr rfl fun j _ => ?_
          rw [hcd j]
      _ = ∑ j, ∑ a, (∑ b, compute_inverse_sym vars.h a b * cvec coords b) *
            (∑ b, compute_inverse_sym vars.h j b * cvec coords b) * vars.h j a := by
          refine Finset.sum_congr rfl fun j _ => ?_
          rw [Finset.sum_mul]
          refine Finset.sum_congr rfl fun a _ => by ring
      _ = ∑ i, ∑ j, (∑ a, compute_inverse_sym vars.h i a * cvec coords a) *
            (∑ a, compute_inverse_sym vars.h j a * cvec coords a) * vars.h i j := by
          refine Finset.sum_congr rfl fun i _ => Finset.sum_congr rfl fun j _ => by ring
  have hQpos : 0 < ∑ j, cvec coords j * ∑ a, compute_inverse_sym vars.h j a * cvec coords a := by
    rw [hQ]
    exact hquad
  have hsq : 0 < Real.sqrt (tetrad_chi vars) := Real.sqrt_pos.mpr (tetrad_chi_pos vars)
  have hw0 : (∑ j, cvec coords j * tetrad_w0 vars coords j) =
      1 / Real.sqrt (tetrad_chi vars) *
        ∑ j, cvec coords j * ∑ a, compute_inverse_sym vars.h j a * cvec coords a := by
    rw [tetrad_w0_eq, Finset.mul_sum]
    refine Finset.sum_congr rfl fun j _ => ?_
    rw [Finset.mul_sum, Finset.mul_sum, Finset.mul_sum]
    refine Finset.sum_congr rfl fun a _ => by ring
  rw [hw0]
  exact mul_pos (by positivity) hQpos

lemma gs_core (g : (Fin 3 → ℝ) → (Fin 3 → ℝ) → ℝ)
    (hadd : ∀ a b c, g (fun i => a i + b i) c = g a c + g b c)
    (hsmul : ∀ (r : ℝ) a b, g (fun i => r * a i) b = r * g a b)
    (hsym : ∀ a b, g a b = g b a)
    (hpos : ∀ a, a ≠ 0 → 0 < g a a)
    (V U W v1 u1 u2 w1 w2 : Fin 3 → ℝ)
    (hV : V ≠ 0)
    (hUV : ∀ r : ℝ, U ≠ fun i => r * V i)
    (hW : ∀ r s : ℝ, W ≠ fun i => r * V i + s * U i)
    (hv1 : v1 = fun i => V i / Real.sqrt (g V V))
    (hu1 : u1 = fun i => U i + -(g v1 U) * v1 i)
    (hu2 : u2 = fun i => u1 i / Real.sqrt (g u1 u1))
    (hw1 : w1 = fun i => W i + -(g v1 W * v1 i + g u2 W * u2 i))
    (hw2 : w2 = fun i => w1 i / Real.sqrt (g w1 w1)) :
    g v1 v1 = 1 ∧ g u2 u2 = 1 ∧ g w2 w2 = 1 ∧
      g v1 u2 = 0 ∧ g v1 w2 = 0 ∧ g u2 w2 = 0 := by
  have hdivl : ∀ (a : Fin 3 → ℝ) (c : ℝ) (b : Fin 3 → ℝ),
      g (fun i => a i / c) b = g a b / c := by
    intro a c b
    have he : (fun i => a i / c) = fun i => 1 / c * a i := by
      funext i
      ring
    rw [he, hsmul]
    ring
  have hdivr : ∀ (a : Fin 3 → ℝ) (c : ℝ) (b : Fin 3 → ℝ),
      g b (fun i => a i / c) = g b a / c := by
    intro a c b
    rw [hsym, hdivl, hsym]
  have hsubr : ∀ (a b c : Fin 3 → ℝ) (r : ℝ),
      g c (fun i => a i + -r * b i) = g c a - r * g c b := by
    intro a b c r
    rw [hsym, hadd, hsmul, hsym a c, hsym b c]
    ring
  have hsub2r : ∀ (x a b c : Fin 3 → ℝ) (r s : ℝ),
      g x (fun i => a i + -(r * b i + s * c i)) = g x a - r * g x b - s * g x c := by
    intro x a b c r s
    have he : (fun i => a i + -(r * b i + s * c i)) =
        fun i => (a i + -r * b i) + -s * c i := by
      funext i
      ring
    rw [he, hsubr, hsubr]
  have hVV : 0 < g V V := hpos V hV
  have hv1v1 : g v1 v1 = 1 := by
    rw [hv1, hdivl, hdivr, div_div, Real.mul_self_sqrt hVV.le, div_self hVV.ne']
  have hv1u1 : g v1 u1 = 0 := by
    rw [hu1, hsubr, hv1v1]
    ring
  have hu1ne : u1 ≠ 0 := by
    intro h0
    apply hUV (g v1 U / Real.sqrt (g V V))
    funext i
    have h2 : U i + -(g v1 U) * v1 i = 0 := congrFun (hu1.symm.trans h0) i
    have hvi : v1 i = V i / Real.sqrt (g V V) := congrFun hv1 i
    linear_combination h2 + g v1 U * hvi
  have hu1u1 : 0 < g u1 u1 := hpos u1 hu1ne
  have hu2u2 : g u2 u2 = 1 := by
    rw [hu2, hdivl, hdivr, div_div, Real.mul_self_sqrt hu1u1.le, div_self hu1u1.ne']
  have hv1u2 : g v1 u2 = 0 := by
    rw [hu2, hdivr, hv1u1, zero_div]
  have hu2v1 : g u2 v1 = 0 := by
    rw [hsym]
    exact hv1u2
  have hv1w1 : g v1 w1 = 0 := by
    rw [hw1, hsub2r, hv1v1, hv1u2]
    ring
  have hu2w1 : g u2 w1 = 0 := by
    rw [hw1, hsub2r, hu2v1, hu2u2]
    ring
  have hw1ne : w1 ≠ 0 := by
    intro h0
    apply hW (g v1 W / Real.sqrt (g V V) -
      g u2 W * g v1 U / (Real.sqrt (g u1 u1) * Real.sqrt (g V V)))
      (g u2 W / Real.sqrt (g u1 u1))
    funext i
    have h2 : W i + -(g v1 W * v1 i + g u2 W * u2 i) = 0 :=
      congrFun (hw1.symm.trans h0) i
    have hvi : v1 i = V i / Real.sqrt (g V V) := congrFun hv1 i
    have hu1i : u1 i = U i + -(g v1 U) * v1 i := congrFun hu1 i
    have hu2i : u2 i = u1 i / Real.sqrt (g u1 u1) := congrFun hu2 i
    linear_combination h2 + g u2 W * hu2i +
      (g u2 W / Real.sqrt (g u1 u1)) * hu1i +
      (g v1 W - g u2 W * g v1 U / Real.sqrt (g u1 u1)) * hvi
  have hw1w1 : 0 < g w1 w1 := hpos w1 hw1ne
  have hw2w2 : g w2 w2 = 1 := by
    rw [hw2, hdivl, hdivr, div_div, Real.mul_self_sqrt hw1w1.le, div_self hw1w1.ne']
  have hv1w2 : g v1 w2 = 0 := by
    rw [hw2, hdivr, hv1w1, zero_div]
  have hu2w2 : g u2 w2 = 0 := by
    rw [hw2, hdivr, hu2w1, zero_div]
  exact ⟨hv1v1, hu2u2, hw2w2, hv1u2, hv1w2, hu2w2⟩

/-- C3 (amended): away from the coordinate z-axis (`x^2 + y^2` nonzero, not
merely away from the origin) and with positive-definite (floored) physical
metric, the three tetrad vectors returned by `compute_null_tetrad` are
orthonormal under the floored physical metric `h[i][j]/max(chi,1e-4)`, which is
the claimed physical metric whenever `chi` is at or above the floor. -/
theorem C3_tetrad_orthonormal (vars : Vars ℝ) (coords : Coordinates)
    (hpd : Matrix.PosDef (physMetric vars))
    (hxy : coords.x ^ 2 + coords.y ^ 2 ≠ 0) :
    spec_inner vars (compute_null_tetrad vars coords).u
        (compute_null_tetrad vars coords).u = 1 ∧
      spec_inner vars (compute_null_tetrad vars coords).v
        (compute_null_tetrad vars coords).v = 1 ∧
      spec_inner vars (compute_null_tetrad vars coords).w
        (compute_null_tetrad vars coords).w = 1 ∧
      spec_inner vars (compute_null_tetrad vars coords).u
        (compute_null_tetrad vars coords).v = 0 ∧
      spec_inner vars (compute_null_tetrad vars coords).u
        (compute_null_tetrad vars coords).w = 0 ∧
      spec_inner vars (compute_null_tetrad vars coords).v
        (compute_null_tetrad vars coords).w = 0 := by
  have hV : tetrad_v0 coords ≠ 0 := by
    intro h0
    apply hxy
    have ha := congrFun h0 0
    have hb := congrFun h0 1
    simp [tetrad_v0] at ha hb
    rw [ha, hb]
    ring
  have hUV : ∀ r : ℝ, tetrad_u0 coords ≠ fun i => r * tetrad_v0 coords i := by
    intro r h
    have h0 := congrFun h 0
    have h1 := congrFun h 1
    simp [tetrad_u0, tetrad_v0] at h0 h1
    apply hxy
    have hx2 : coords.x * (1 + r ^ 2) = 0 := by linear_combination h0 - r * h1
    have hx : coords.x = 0 := by
      rcases mul_eq_zero.mp hx2 with h' | h'
      · exact h'
      · nlinarith [sq_nonneg r]
    have hy : coords.y = 0 := by
      rw [hx] at h1
      simpa using h1
    rw [hx, hy]
    ring
  have hW : ∀ r s : ℝ, tetrad_w0 vars coords ≠
      fun i => r * tetrad_v0 coords i + s * tetrad_u0 coords i := by
    intro r s h
    have hposW := cvec_w0_pos vars coords hpd hxy
    rw [h] at hposW
    simp only [] at hposW
    have hz : (∑ j, cvec coords j *
        (r * tetrad_v0 coords j + s * tetrad_u0 coords j)) = 0 := by
      have hterm : ∀ j, cvec coords j *
          (r * tetrad_v0 coords j + s * tetrad_u0 coords j) =
            r * (cvec coords j * tetrad_v0 coords j) +
              s * (cvec coords j * tetrad_u0 coords j) := fun j => by ring
      rw [Finset.sum_congr rfl fun j _ => hterm j, Finset.sum_add_distrib,
        ← Finset.mul_sum, ← Finset.mul_sum, cvec_dot_v0, cvec_dot_u0]
      ring
    linarith
  have hadd := spec_inner_add_left vars
  have hsmul := spec_inner_smul_left vars
  have hsymg := spec_inner_symm vars hpd
  have hposg := spec_inner_pos vars hpd
  have hv1eq : tetrad_v1 vars coords = fun i =>
      tetrad_v0 coords i /
        Real.sqrt (spec_inner vars (tetrad_v0 coords) (tetrad_v0 coords)) := by
    funext i
    simp only [tetrad_v1, omega_11_eq]
  have hu1eq : tetrad_u1 vars coords = fun i =>
      tetrad_u0 coords i +
        -(spec_inner vars (tetrad_v1 vars coords) (tetrad_u0 coords)) *
          tetrad_v1 vars coords i := by
    funext i
    simp only [tetrad_u1, omega_12_eq]
  have hu2eq : tetrad_u2 vars coords = fun i =>
      tetrad_u1 vars coords i /
        Real.sqrt (spec_inner vars (tetrad_u1 vars coords) (tetrad_u1 vars coords)) := by
    funext i
    simp only [tetrad_u2, omega_22_eq]
  have hw1eq : tetrad_w1 vars coords = fun i =>
      tetrad_w0 vars coords i +
        -(spec_inner vars (tetrad_v1 vars coords) (tetrad_w0 vars coords) *
            tetrad_v1 vars coords i +
          spec_inner vars (tetrad_u2 vars coords) (tetrad_w0 vars coords) *
            tetrad_u2 vars coords i) := by
    funext i
    simp only [tetrad_w1, omega_13_eq, omega_23_eq]
  have hw2eq : tetrad_w2 vars coords = fun i =>
      tetrad_w1 vars coords i /
        Real.sqrt (spec_inner vars (tetrad_w1 vars coords) (tetrad_w1 vars coords)) := by
    funext i
    simp only [tetrad_w2, omega_33_eq]
  obtain ⟨h1, h2, h3, h4, h5, h6⟩ :=
    gs_core (spec_inner vars) hadd hsmul hsymg hposg (tetrad_v0 coords)
      (tetrad_u0 coords) (tetrad_w0 vars coords) (tetrad_v1 vars coords)
      (tetrad_u1 vars coords) (tetrad_u2 vars coords) (tetrad_w1 vars coords)
      (tetrad_w2 vars coords) hV hUV hW hv1eq hu1eq hu2eq hw1eq hw2eq
  refine ⟨h2, h1, h3, ?_, h6, h5⟩
  rw [show (compute_null_tetrad vars coords).u = tetrad_u2 vars coords from rfl,
    show (compute_null_tetrad vars coords).v = tetrad_v1 vars coords from rfl,
    hsymg]
  exact h4

lemma physMetric_flat : physMetric flatVars = (1 : Matrix (Fin 3) (Fin 3) ℝ) := by
  have hm : tetrad_chi flatVars = 1 := by
    rw [tetrad_chi, flatVars_chi]
    simp [simd_max]
    norm_num
  ext i j
  rw [Matrix.one_apply]
  simp [physMetric, flatVars_h, hm]

/-- C3 counterexample: the point `(0,0,1)` on the z-axis is away from the
coordinate origin and the physical metric there (flat space) is positive
definite, yet the azimuthal seed vanishes and the returned `v` has physical
norm 0, not 1 - so excluding only the origin is not enough. -/
theorem C3_counterexample :
    Matrix.PosDef (physMetric flatVars) ∧
      ((0 : ℝ) ^ 2 + (0 : ℝ) ^ 2 + (1 : ℝ) ^ 2 ≠ 0) ∧
      spec_inner flatVars (compute_null_tetrad flatVars ⟨0, 0, 1⟩).v
        (compute_null_tetrad flatVars ⟨0, 0, 1⟩).v ≠ 1 := by
  refine ⟨physMetric_flat ▸ Matrix.PosDef.one, by norm_num, ?_⟩
  have hv : spec_inner flatVars (compute_null_tetrad flatVars ⟨0, 0, 1⟩).v
      (compute_null_tetrad flatVars ⟨0, 0, 1⟩).v = 0 := by
    simp [spec_inner, compute_null_tetrad, tetrad_v1, omega_11, tetrad_v0,
      Fin.sum_univ_three, Matrix.cons_val_zero, Matrix.cons_val_one,
      Matrix.head_cons, Matrix.cons_val_two, Matrix.tail_cons]
  rw [hv]
  norm_num

/-- Witness for the amended C3 at flat space and the point `(1,0,0)`. -/
theorem C3_witness :
    Matrix.PosDef (physMetric flatVars) ∧
      ((⟨1, 0, 0⟩ : Coordinates).x ^ 2 + (⟨1, 0, 0⟩ : Coordinates).y ^ 2 ≠ 0) ∧
      (spec_inner flatVars (compute_null_tetrad flatVars ⟨1, 0, 0⟩).u
          (compute_null_tetrad flatVars ⟨1, 0, 0⟩).u = 1 ∧
        spec_inner flatVars (compute_null_tetrad flatVars ⟨1, 0, 0⟩).v
          (compute_null_tetrad flatVars ⟨1, 0, 0⟩).v = 1 ∧
        spec_inner flatVars (compute_null_tetrad flatVars ⟨1, 0, 0⟩).w
          (compute_null_tetrad flatVars ⟨1, 0, 0⟩).w = 1 ∧
        spec_inner flatVars (compute_null_tetrad flatVars ⟨1, 0, 0⟩).u
          (compute_null_tetrad flatVars ⟨1, 0, 0⟩).v = 0 ∧
        spec_inner flatVars (compute_null_tetrad flatVars ⟨1, 0, 0⟩).u
          (compute_null_tetrad flatVars ⟨1, 0, 0⟩).w = 0 ∧
        spec_inner flatVars (compute_null_tetrad flatVars ⟨1, 0, 0⟩).v
          (compute_null_tetrad flatVars ⟨1, 0, 0⟩).w = 0) :=
  have hpd1 : Matrix.PosDef (physMetric flatVars) :=
    physMetric_flat ▸ Matrix.PosDef.one
  ⟨hpd1, by norm_num,
    C3_tetrad_orthonormal flatVars ⟨1, 0, 0⟩ hpd1 (by norm_num)⟩
